import Mathlib

/-!
# Verification of the rusty-brain spectral core

Shallow embedding of the spectral-transform routines of the repository
(`src/fft.rs`, `src/filter.rs`, `src/s_transform.rs`) as Lean functions over
lists.  The 32-bit floating point arithmetic of the source is idealised as
exact real/complex arithmetic, so every "within floating tolerance" statement
of the specification becomes an exact equality here.  `usize` arithmetic is
modelled exactly, with wrap-around (`% 2^64`) made explicit where the source
can overflow, and operations that can panic or diverge are modelled as
`Option`-valued (or fuel-indexed) functions.
-/

noncomputable section

namespace RustyBrain

open Real Complex

/-- `Complex::new(angle.cos(), angle.sin())`, the twiddle-factor constructor
used throughout `fft.rs`. -/
def twiddle (θ : ℝ) : ℂ := ⟨Real.cos θ, Real.sin θ⟩

/-- `FourierTransform::dft` (`fft.rs` lines 49-67): naive direct summation,
`result[k] = Σ_t exp(-2πikt/n)·x[t]`. -/
def dft (x : List ℂ) : List ℂ :=
  (List.range x.length).map (fun k : ℕ =>
    ∑ t ∈ Finset.range x.length,
      twiddle (-2 * π * (k : ℝ) * (t : ℝ) / (x.length : ℝ)) * x.getD t 0)

/-- The even-indexed elements of a list: `self.slice(s![..; 2])`. -/
def evens {α : Type*} : List α → List α
  | [] => []
  | [a] => [a]
  | a :: _ :: rest => a :: evens rest

/-- The odd-indexed elements of a list: `self.slice(s![1..; 2])`. -/
def odds {α : Type*} : List α → List α
  | [] => []
  | [_] => []
  | _ :: b :: rest => b :: odds rest

/-- The combination step of `FourierTransform::fft` (`fft.rs` lines 86-93):
starting from `Array1::zeros(n)`, for every `k < n/2` the loop writes
`result[k] = even[k] + twiddle·odd[k]` and `result[k+n/2] = even[k] - twiddle·odd[k]`;
all positions not written by the loop keep their initial value `0`. -/
def combine (e o : List ℂ) (n : ℕ) : List ℂ :=
  (List.range n).map (fun j : ℕ =>
    if j < n / 2 then e.getD j 0 + twiddle (-2 * π * (j : ℝ) / (n : ℝ)) * o.getD j 0
    else if j - n / 2 < n / 2 then
      e.getD (j - n / 2) 0
        - twiddle (-2 * π * ((j - n / 2 : ℕ) : ℝ) / (n : ℝ)) * o.getD (j - n / 2) 0
    else 0)

/-- `FourierTransform::fft` (`fft.rs` lines 69-96), with an explicit recursion
fuel.  The source recursion calls itself on the even- and odd-indexed
sub-slices; on the empty input both sub-slices are again empty and the `n == 1`
base case is never reached, so the source diverges — exhausting the fuel
(`none`) models that divergence. -/
def fftF : ℕ → List ℂ → Option (List ℂ)
  | 0, _ => none
  | fuel + 1, x =>
    if x.length = 1 then some x
    else
      match fftF fuel (evens x), fftF fuel (odds x) with
      | some e, some o => some (combine e o x.length)
      | _, _ => none

/-- Total wrapper for `fft`: `x.length` units of fuel are enough for every
non-empty input (each recursive call strictly shrinks the slice). -/
def fft (x : List ℂ) : List ℂ := (fftF x.length x).getD []

/-- `InverseFourierTransform::idft` (`fft.rs` lines 156-174):
`result[k] = (Σ_t exp(2πikt/n)·y[t]) / n`. -/
def idft (y : List ℂ) : List ℂ :=
  (List.range y.length).map (fun k : ℕ =>
    (∑ t ∈ Finset.range y.length,
      twiddle (2 * π * (k : ℝ) * (t : ℝ) / (y.length : ℝ)) * y.getD t 0) / y.length)

/-- `InverseFourierTransform::ifft` (`fft.rs` lines 176-179): conjugate the
input, apply the forward `fft`, conjugate the output, divide by the input
length. -/
def ifft (y : List ℂ) : List ℂ :=
  ((fft (y.map (starRingEnd ℂ))).map (starRingEnd ℂ)).map (fun z => z / y.length)

/-- `RealFourierTransform::rfft` (`fft.rs` lines 123-125): lift the real
samples to complex numbers and delegate to `fft`. -/
def rfft (x : List ℝ) : List ℂ := fft (x.map (fun r : ℝ => (r : ℂ)))

/-- `RealInverseFourierTransform::irfft` (`fft.rs` lines 206-210): apply
`ifft` (which internally performs the conjugate trick) and keep the real part
of every entry (`Complex::from` on an already-complex array is the identity). -/
def irfft (y : List ℂ) : List ℝ := (ifft y).map Complex.re

/-- `RealInverseFourierTransform::irdft` (`fft.rs` lines 186-204):
`result[k] = (Σ_t (exp(2πikt/n)·y[t]).re) / n`. -/
def irdft (y : List ℂ) : List ℝ :=
  (List.range y.length).map (fun k : ℕ =>
    (∑ t ∈ Finset.range y.length,
      (twiddle (2 * π * (k : ℝ) * (t : ℝ) / (y.length : ℝ)) * y.getD t 0).re) / y.length)

/-- `freqs` (`fft.rs` lines 214-217).  The subtraction `i - n` (for
`i ≥ n/2`) is performed on `usize`; in release mode it wraps modulo `2^64`
(in debug mode the source panics on the overflow), and the wrapped unsigned
value is then converted with `as f32`.  The wrap is modelled explicitly. -/
def freqs (n : ℕ) (samplingFreq : ℝ) : List ℝ :=
  let df := samplingFreq / n
  (List.range n).map (fun i : ℕ =>
    (((((i : ℤ) - (if i < n / 2 then 0 else (n : ℤ))) % (2 ^ 64 : ℤ)).toNat : ℝ)) * df)

/-- Rust `usize::next_power_of_two`: the smallest power of two that is `≥ n`
(and `1` for `n = 0`). -/
def nextPowTwo (n : ℕ) : ℕ := 2 ^ Nat.clog 2 n

/-- `RealFourierTransform::stft` (`fft.rs` lines 127-149).  The frame count
`(len - window_size) / hop_size + 1` is computed with `usize` subtraction and
division, which panic when `len < window_size` or `hop_size = 0`; those panics
are modelled by `none`.  Each frame is multiplied elementwise by the sine
window, written into the first `window_size` entries of a zero block of the
padded power-of-two length, and transformed with `rfft`. -/
def stft (x : List ℝ) (windowSize hopSize : ℕ) : Option (List (List ℂ)) :=
  if windowSize ≤ x.length ∧ 0 < hopSize then
    let nextPow2 := nextPowTwo windowSize
    let window := (List.range windowSize).map
      (fun j : ℕ => Real.sin (π * ((j : ℝ) + 0.5) / (windowSize : ℝ)))
    let numFrames := (x.length - windowSize) / hopSize + 1
    some ((List.range numFrames).map (fun i =>
      let frame := List.zipWith (· * ·) ((x.drop (i * hopSize)).take windowSize) window
      rfft (frame ++ List.replicate (nextPow2 - windowSize) 0)))
  else none

/-- One output sample of the full linear convolution of `coefficients` with
`signal`: `Σ_b coefficients[b]·signal[j-b]` over the indices in range. -/
def convAt (coefficients signal : List ℝ) (j : ℕ) : ℝ :=
  ∑ b ∈ Finset.range coefficients.length,
    coefficients.getD b 0 * (if b ≤ j then signal.getD (j - b) 0 else 0)

/-- The full linear convolution of `coefficients` with `signal`, of length
`len(signal) + len(coefficients) - 1` — the reference result the
specification demands of `FIRFilter::process`. -/
def linConv (coefficients signal : List ℝ) : List ℝ :=
  (List.range (signal.length + coefficients.length - 1)).map (convAt coefficients signal)

/-- The accumulation step of `FIRFilter::process` (`filter.rs` lines 44-50):
`output.slice_mut(s![start..end]).iter_mut().zip(y.iter()).for_each(|(o, v)| *o += v)`
with `end = min(start + y.len(), output.len())`: every output position
`start ≤ idx < start + y.len()` receives `y[idx - start]` added on, all other
positions are unchanged (overlapping regions add, never replace). -/
def addInto (out : List ℝ) (start : ℕ) (y : List ℝ) : List ℝ :=
  (List.range out.length).map (fun idx =>
    out.getD idx 0 + (if start ≤ idx ∧ idx < start + y.length then y.getD (idx - start) 0 else 0))

/-- The block loop of `FIRFilter::process` (`filter.rs` lines 32-51):
`axis_chunks_iter(Axis(0), l)` yields `rest.take l` and continues on
`rest.drop l`; every chunk is zero-padded to `n`, transformed, multiplied with
`H`, inverse-transformed and accumulated at offset `i·l`.  (`l = 0` would make
the chunk iterator panic in the source; it cannot occur because
`l = n - m + 1 ≥ 1`.) -/
def oaLoop (H : List ℂ) (n l : ℕ) : List ℝ → ℕ → List ℝ → List ℝ
  | out, _, [] => out
  | out, start, a :: rest =>
    if hl : l = 0 then out
    else
      let chunk := (a :: rest).take l
      let X := rfft (chunk ++ List.replicate (n - chunk.length) 0)
      let y := irfft (List.zipWith (· * ·) X H)
      oaLoop H n l (addInto out start y) (start + l) ((a :: rest).drop l)
  termination_by _ _ rest => rest.length
  decreasing_by simp [List.length_drop]; omega

/-- `FIRFilter::process` (`filter.rs` lines 18-54): overlap-add fast
convolution with block transform length `n = 8 · next_power_of_two(m)` and
per-block useful length `l = n - m + 1`. -/
def process (coefficients signal : List ℝ) : List ℝ :=
  let m := coefficients.length
  let n := 8 * nextPowTwo m
  let l := n - m + 1
  let H := rfft (coefficients ++ List.replicate (n - m) 0)
  let out := List.replicate (signal.length + m - 1) (0 : ℝ)
  oaLoop H n l out 0 signal

/-- The Gaussian of `STransform::st` (`s_transform.rs` line 29):
`gauss(f, m) = exp(-2π²m²/f²)` (the closure's first argument is the row
frequency `f`, its second the offset `m`). -/
def gauss (f m : ℕ) : ℝ := Real.exp (-2 * π * π * (m * m) / (f * f))

/-- The mirrored frequency-domain Gaussian window of `STransform::st`
(`s_transform.rs` lines 42-48): starting from zeros, `wgauss[0] = gauss(f,0)`,
then for `1 ≤ i ≤ n/2` both `wgauss[i]` and `wgauss[n-i]` are set to
`gauss(f,i)` — so index `j ≤ n/2` holds `gauss(f,j)` and index `j > n/2`
holds `gauss(f,n-j)`. -/
def wgauss (n f : ℕ) : List ℝ :=
  (List.range n).map (fun j => if j ≤ n / 2 then gauss f j else gauss f (n - j))

/-- `STransform::st` (`s_transform.rs` lines 27-67).  Row `0` is the sample
mean broadcast over all `n` time columns; row `f` (for `1 ≤ f ≤ n/2`) is the
inverse FFT of `H` circularly shifted by `f` (`k = i + f`, reduced mod `n`)
and multiplied by the Gaussian window. -/
def st (x : List ℝ) : List (List ℂ) :=
  let n := x.length
  let H := fft (x.map (fun r : ℝ => (r : ℂ)))
  let row0 : List ℂ := List.replicate n ((x.sum / n : ℝ) : ℂ)
  row0 :: (List.range (n / 2)).map (fun f0 =>
    let f := f0 + 1
    let filtered := (List.range n).map (fun i =>
      H.getD ((i + f) % n) 0 * (((wgauss n f).getD i 0 : ℝ) : ℂ))
    ifft filtered)

/-- `InverseSTransform::ist` (`s_transform.rs` lines 74-89): sum each
frequency row across time, mirror the upper half of the spectrum by conjugate
symmetry (`result[i] = conj(result[ntimes-i])` for `i > ntimes/2`), apply
`ifft` and keep the real parts.  (The source indexes `result[f]` for
`f < nfreqs` and would panic if `nfreqs > ntimes`; matrices produced by `st`
always satisfy `nfreqs = ntimes/2 + 1 ≤ ntimes`, and the guard `f < nfreqs`
below only mirrors the loop bound.) -/
def ist (S : List (List ℂ)) : List ℝ :=
  let nfreqs := S.length
  let ntimes := (S.headD []).length
  let rowSum : ℕ → ℂ := fun f => if f < nfreqs then (S.getD f []).sum else 0
  let result := (List.range ntimes).map (fun i =>
    if ntimes / 2 + 1 ≤ i then (starRingEnd ℂ) (rowSum (ntimes - i)) else rowSum i)
  (ifft result).map Complex.re

/-- The primitive `n`-th root of unity `exp(-2πi/n)` used by the forward
transforms (twiddle factor at `k = 1`). -/
def uroot (n : ℕ) : ℂ := twiddle (-2 * π / n)

/-- The primitive `n`-th root of unity `exp(2πi/n)` used by the inverse
transforms. -/
def iuroot (n : ℕ) : ℂ := twiddle (2 * π / n)

/-- The sine analysis window of the specification, §4.3:
`window[n] = sin(π(n+0.5)/window_size)`. -/
def specWindow (windowSize j : ℕ) : ℝ := Real.sin (π * (j + 0.5) / windowSize)

/-- Modelled from the spec (§4.3): the `i`-th spectrogram row demanded of
`stft` — the frame `x[i·hop .. i·hop + window_size]` multiplied elementwise by
the sine window, zero-padded to the power-of-two length `np`, then
transformed with `rfft`. -/
def specStftRow (x : List ℝ) (windowSize hopSize np i : ℕ) : List ℂ :=
  rfft ((List.range np).map (fun j =>
    if j < windowSize then x.getD (i * hopSize + j) 0 * specWindow windowSize j else 0))

/-! ### List helpers -/

theorem getD_map_range {α : Type*} (f : ℕ → α) {n i : ℕ} (h : i < n) (d : α) :
    ((List.range n).map f).getD i d = f i := by
  rw [List.getD_eq_getElem?_getD]
  simp [List.getElem?_map, List.getElem?_range, h]

theorem getD_map_range_ge {α : Type*} (f : ℕ → α) {n i : ℕ} (h : n ≤ i) (d : α) :
    ((List.range n).map f).getD i d = d := by
  apply List.getD_eq_default
  simpa using h

theorem sum_list_range {M : Type*} [AddCommMonoid M] (f : ℕ → M) (n : ℕ) :
    ((List.range n).map f).sum = ∑ i ∈ Finset.range n, f i := by
  induction n with
  | zero => simp
  | succ n ih => rw [List.range_succ, Finset.sum_range_succ, ← ih]; simp

theorem list_eq_map_range_getD {α : Type*} (d : α) (l : List α) :
    l = (List.range l.length).map (fun i => l.getD i d) := by
  apply List.ext_getElem (by simp)
  intro i h1 h2
  simp only [List.getElem_map, List.getElem_range]
  rw [List.getD_eq_getElem _ _ h1]

theorem list_sum_eq_sum_range {M : Type*} [AddCommMonoid M] (l : List M) :
    l.sum = ∑ i ∈ Finset.range l.length, l.getD i 0 := by
  conv_lhs => rw [list_eq_map_range_getD 0 l]
  rw [sum_list_range]

theorem getD_pad {α : Type*} [Zero α] (l : List α) (n p : ℕ) :
    (l ++ List.replicate (n - l.length) (0 : α)).getD p 0 =
      if p < l.length then l.getD p 0 else 0 := by
  rcases lt_or_le p l.length with h | h
  · rw [List.getD_eq_getElem?_getD, List.getElem?_append_left h, if_pos h,
      List.getD_eq_getElem?_getD]
  · simp only [if_neg (not_lt.mpr h)]
    rw [List.getD_eq_getElem?_getD, List.getElem?_append_right h]
    rcases lt_or_le (p - l.length) (n - l.length) with h2 | h2
    · simp [List.getElem?_replicate, h2]
    · rw [List.getElem?_eq_none (by simpa using h2)]; rfl

theorem length_evens {α : Type*} : ∀ (l : List α), (evens l).length = (l.length + 1) / 2
  | [] => by simp [evens]
  | [a] => by simp [evens]
  | _ :: _ :: rest => by
    rw [evens, List.length_cons, length_evens rest]
    simp only [List.length_cons]
    omega

theorem length_odds {α : Type*} : ∀ (l : List α), (odds l).length = l.length / 2
  | [] => by simp [odds]
  | [a] => by simp [odds]
  | _ :: _ :: rest => by
    rw [odds, List.length_cons, length_odds rest]
    simp only [List.length_cons]
    omega

theorem getD_evens {α : Type*} : ∀ (l : List α) (i : ℕ) (d : α),
    (evens l).getD i d = l.getD (2 * i) d
  | [], i, d => by simp [evens]
  | [a], i, d => by
    cases i with
    | zero => simp [evens]
    | succ i =>
      rw [evens, List.getD_eq_default _ _ (by simp), List.getD_eq_default _ _ (by simp; omega)]
  | a :: b :: rest, i, d => by
    cases i with
    | zero => simp [evens]
    | succ i =>
      rw [evens, List.getD_cons_succ, getD_evens rest i d,
        show 2 * (i + 1) = (2 * i + 1) + 1 by ring,
        List.getD_cons_succ, List.getD_cons_succ]

theorem getD_odds {α : Type*} : ∀ (l : List α) (i : ℕ) (d : α),
    (odds l).getD i d = l.getD (2 * i + 1) d
  | [], i, d => by simp [odds]
  | [a], i, d => by
    rw [odds, List.getD_eq_default _ _ (by simp), List.getD_eq_default _ _ (by simp)]
  | a :: b :: rest, i, d => by
    cases i with
    | zero => simp [odds]
    | succ i =>
      rw [odds, List.getD_cons_succ, getD_odds rest i d,
        show 2 * (i + 1) + 1 = ((2 * i + 1) + 1) + 1 by ring,
        List.getD_cons_succ, List.getD_cons_succ]

/-! ### Twiddle-factor algebra -/

theorem twiddle_eq_exp (θ : ℝ) : twiddle θ = Complex.exp (θ * Complex.I) := by
  apply Complex.ext
  · rw [Complex.exp_ofReal_mul_I_re]; rfl
  · rw [Complex.exp_ofReal_mul_I_im]; rfl

theorem twiddle_zero : twiddle 0 = 1 := by
  apply Complex.ext <;> simp [twiddle]

theorem twiddle_add (a b : ℝ) : twiddle (a + b) = twiddle a * twiddle b := by
  rw [twiddle_eq_exp, twiddle_eq_exp, twiddle_eq_exp, ← Complex.exp_add]
  congr 1
  push_cast
  ring

theorem twiddle_pow (θ : ℝ) (k : ℕ) : twiddle θ ^ k = twiddle (k * θ) := by
  rw [twiddle_eq_exp, twiddle_eq_exp, ← Complex.exp_nat_mul]
  congr 1
  push_cast
  ring

theorem conj_twiddle (θ : ℝ) : (starRingEnd ℂ) (twiddle θ) = twiddle (-θ) := by
  apply Complex.ext <;> simp [twiddle]

theorem twiddle_int_two_pi (k : ℤ) : twiddle (k * (2 * π)) = 1 := by
  rw [twiddle_eq_exp]
  have h := Complex.exp_int_mul_two_pi_mul_I k
  rw [show ((k * (2 * π) : ℝ) : ℂ) * Complex.I = k * (2 * π * Complex.I) by push_cast; ring]
  exact h

theorem twiddle_neg_pi : twiddle (-π) = -1 := by
  rw [twiddle_eq_exp, show ((-π : ℝ) : ℂ) * Complex.I = -(π * Complex.I) by push_cast; ring,
    Complex.exp_neg, Complex.exp_pi_mul_I]
  norm_num

theorem twiddle_eq_one_iff (θ : ℝ) : twiddle θ = 1 ↔ ∃ k : ℤ, θ = k * (2 * π) := by
  rw [twiddle_eq_exp, Complex.exp_eq_one_iff]
  constructor
  · rintro ⟨k, hk⟩
    refine ⟨k, ?_⟩
    have h2 : (θ : ℂ) * Complex.I = ((k : ℂ) * (2 * π)) * Complex.I := by
      rw [hk]; push_cast; ring
    have h3 : (θ : ℂ) = (k : ℂ) * (2 * π) := mul_right_cancel₀ Complex.I_ne_zero h2
    exact_mod_cast h3
  · rintro ⟨k, hk⟩
    exact ⟨k, by rw [hk]; push_cast; ring⟩

theorem twiddle_dft_angle (n a b : ℕ) :
    twiddle (-2 * π * a * b / n) = uroot n ^ (a * b) := by
  rw [uroot, twiddle_pow]
  congr 1
  push_cast
  ring

theorem twiddle_combine_angle (n a : ℕ) :
    twiddle (-2 * π * a / n) = uroot n ^ a := by
  rw [uroot, twiddle_pow]
  congr 1
  push_cast
  ring

theorem twiddle_idft_angle (n a b : ℕ) :
    twiddle (2 * π * a * b / n) = iuroot n ^ (a * b) := by
  rw [iuroot, twiddle_pow]
  congr 1
  push_cast
  ring

theorem uroot_pow_self {n : ℕ} (hn : 1 ≤ n) : uroot n ^ n = 1 := by
  have hn' : (n : ℝ) ≠ 0 := Nat.cast_ne_zero.mpr (by omega)
  rw [uroot, twiddle_pow, show (n : ℝ) * (-2 * π / n) = (-1 : ℤ) * (2 * π) by
    push_cast; field_simp; ring, twiddle_int_two_pi]

theorem uroot_two_mul_sq {m : ℕ} (hm : 1 ≤ m) : uroot (2 * m) ^ 2 = uroot m := by
  have hm' : (m : ℝ) ≠ 0 := Nat.cast_ne_zero.mpr (by omega)
  rw [uroot, uroot, twiddle_pow]
  congr 1
  push_cast
  field_simp
  ring

theorem uroot_two_mul_pow_half {m : ℕ} (hm : 1 ≤ m) : uroot (2 * m) ^ m = -1 := by
  have hm' : (m : ℝ) ≠ 0 := Nat.cast_ne_zero.mpr (by omega)
  have ha : (m : ℝ) * (-2 * π / ((2 * m : ℕ) : ℝ)) = -π := by
    push_cast
    field_simp
    ring
  rw [uroot, twiddle_pow, ha, twiddle_neg_pi]

theorem iuroot_pow_mul_uroot_pow (n a b : ℕ) :
    iuroot n ^ a * uroot n ^ b = twiddle ((((a : ℝ) - b) / n) * (2 * π)) := by
  rw [iuroot, uroot, twiddle_pow, twiddle_pow, ← twiddle_add]
  congr 1
  push_cast
  ring

/-- Orthogonality of the discrete characters: summing
`exp(2πikt/n)·exp(-2πits/n)` over `t < n` gives `n` when `s ≡ k (mod n)` and
`0` otherwise. -/
theorem sum_iuroot_uroot {n : ℕ} (hn : 1 ≤ n) {k : ℕ} (s : ℕ) (hk : k < n) :
    ∑ t ∈ Finset.range n, iuroot n ^ (k * t) * uroot n ^ (t * s) =
      if s % n = k then (n : ℂ) else 0 := by
  have hn' : (n : ℝ) ≠ 0 := Nat.cast_ne_zero.mpr (by omega)
  have hsummand : ∀ t, iuroot n ^ (k * t) * uroot n ^ (t * s)
      = (iuroot n ^ k * uroot n ^ s) ^ t := by
    intro t
    rw [mul_pow, ← pow_mul, ← pow_mul, mul_comm s t]
  rw [Finset.sum_congr rfl (fun t _ => hsummand t)]
  have hz := iuroot_pow_mul_uroot_pow n k s
  by_cases h : s % n = k
  · have hone : iuroot n ^ k * uroot n ^ s = 1 := by
      rw [hz, twiddle_eq_one_iff]
      refine ⟨-(s / n : ℕ), ?_⟩
      have h0 : (n : ℝ) * ((s / n : ℕ) : ℝ) + k = s := by
        have h0' : n * (s / n) + s % n = s := Nat.div_add_mod s n
        rw [h] at h0'
        exact_mod_cast h0'
      have hcast : ((k : ℝ) - s) / n = -((s / n : ℕ) : ℝ) := by
        rw [div_eq_iff hn']
        linarith
      rw [hcast, Int.cast_neg, Int.cast_natCast]
    rw [hone]
    simp [h]
  · have hzn : (iuroot n ^ k * uroot n ^ s) ^ n = 1 := by
      rw [hz, twiddle_pow, twiddle_eq_one_iff]
      refine ⟨(k : ℤ) - s, ?_⟩
      push_cast
      field_simp
    have hz1 : iuroot n ^ k * uroot n ^ s ≠ 1 := by
      intro hcon
      rw [hz, twiddle_eq_one_iff] at hcon
      obtain ⟨j, hj⟩ := hcon
      have h2pi : (2 * π : ℝ) ≠ 0 := by positivity
      have hdiv : ((k : ℝ) - s) / n = j := mul_right_cancel₀ h2pi hj
      have hks : (k : ℝ) - s = j * n := by
        field_simp at hdiv
        linarith
      have hksZ : (k : ℤ) - s = j * n := by exact_mod_cast hks
      have hmodeq : (s : ℤ) ≡ (k : ℤ) [ZMOD (n : ℤ)] := by
        rw [Int.ModEq]
        have : (s : ℤ) = k + (-j) * n := by linarith
        rw [this, Int.add_mul_emod_self]
      have hmodn : s ≡ k [MOD n] := Int.natCast_modEq_iff.mp hmodeq
      rw [Nat.ModEq, Nat.mod_eq_of_lt hk] at hmodn
      exact h hmodn
    rw [geom_sum_eq hz1 n, hzn]
    simp [h]

/-! ### Recursion and termination of the fast transform -/

theorem fftF_mono : ∀ (f : ℕ) (x : List ℂ) (r : List ℂ),
    fftF f x = some r → fftF (f + 1) x = some r
  | 0, x, r, h => by simp [fftF] at h
  | f + 1, x, r, h => by
    rw [fftF] at h
    rw [fftF]
    by_cases hx : x.length = 1
    · simpa [hx] using h
    · simp only [if_neg hx] at h ⊢
      cases he : fftF f (evens x) with
      | none => rw [he] at h; simp at h
      | some e =>
        cases ho : fftF f (odds x) with
        | none => rw [he, ho] at h; simp at h
        | some o =>
          rw [he, ho] at h
          rw [fftF_mono f (evens x) e he, fftF_mono f (odds x) o ho]
          exact h

theorem fftF_le {f g : ℕ} (hfg : f ≤ g) {x : List ℂ} {r : List ℂ}
    (h : fftF f x = some r) : fftF g x = some r := by
  induction g with
  | zero =>
    have hf0 : f = 0 := by omega
    exact hf0 ▸ h
  | succ g ih =>
    rcases Nat.lt_or_ge f (g + 1) with hlt | hge
    · exact fftF_mono g x r (ih (by omega))
    · have hfe : f = g + 1 := by omega
      exact hfe ▸ h

theorem fftF_isSome : ∀ (f : ℕ) (x : List ℂ), 1 ≤ x.length → x.length ≤ f →
    ∃ r, fftF f x = some r
  | 0, x, h1, hf => by omega
  | f + 1, x, h1, hf => by
    by_cases hx : x.length = 1
    · exact ⟨x, by simp [fftF, hx]⟩
    · have hx2 : 2 ≤ x.length := by omega
      obtain ⟨e, he⟩ := fftF_isSome f (evens x)
        (by rw [length_evens]; omega) (by rw [length_evens]; omega)
      obtain ⟨o, ho⟩ := fftF_isSome f (odds x)
        (by rw [length_odds]; omega) (by rw [length_odds]; omega)
      refine ⟨combine e o x.length, ?_⟩
      rw [fftF, if_neg hx, he, ho]

theorem fftF_eq_fft {f : ℕ} {x : List ℂ} (h1 : 1 ≤ x.length) (hf : x.length ≤ f) :
    fftF f x = some (fft x) := by
  obtain ⟨r, hr⟩ := fftF_isSome x.length x h1 le_rfl
  rw [fftF_le hf hr, fft, hr]
  rfl

/-- The `n = 1` base case of `fft` (`fft.rs` lines 72-75). -/
theorem fft_base {x : List ℂ} (h : x.length = 1) : fft x = x := by
  rw [fft, h, fftF, if_pos h]
  rfl

/-- The recursion equation of `fft` for inputs of length at least 2. -/
theorem fft_rec {x : List ℂ} (h2 : 2 ≤ x.length) :
    fft x = combine (fft (evens x)) (fft (odds x)) x.length := by
  have he : fftF (x.length - 1) (evens x) = some (fft (evens x)) :=
    fftF_eq_fft (by rw [length_evens]; omega) (by rw [length_evens]; omega)
  have ho : fftF (x.length - 1) (odds x) = some (fft (odds x)) :=
    fftF_eq_fft (by rw [length_odds]; omega) (by rw [length_odds]; omega)
  have hsome : fftF x.length x = some (combine (fft (evens x)) (fft (odds x)) x.length) := by
    have hk : x.length = (x.length - 1) + 1 := by omega
    conv_lhs => rw [hk]
    rw [fftF, if_neg (by omega), he, ho]
  rw [fft, hsome]
  rfl

theorem combine_length (e o : List ℂ) (n : ℕ) : (combine e o n).length = n := by
  simp [combine]

/-- `fft` preserves the length of every non-empty input. -/
theorem fft_length {x : List ℂ} (h1 : 1 ≤ x.length) : (fft x).length = x.length := by
  rcases Nat.lt_or_ge x.length 2 with h | h
  · have : x.length = 1 := by omega
    rw [fft_base this]
  · rw [fft_rec h, combine_length]

/-! ### The fast transform computes the naive transform on power-of-two lengths -/

theorem dft_length (x : List ℂ) : (dft x).length = x.length := by
  simp [dft]

theorem dft_getD {x : List ℂ} {k : ℕ} (hk : k < x.length) :
    (dft x).getD k 0 = ∑ t ∈ Finset.range x.length, uroot x.length ^ (k * t) * x.getD t 0 := by
  rw [dft, getD_map_range _ hk]
  exact Finset.sum_congr rfl (fun t _ => by rw [twiddle_dft_angle])

theorem sum_range_even_odd {M : Type*} [AddCommMonoid M] (F : ℕ → M) (m : ℕ) :
    ∑ t ∈ Finset.range (2 * m), F t =
      (∑ s ∈ Finset.range m, F (2 * s)) + ∑ s ∈ Finset.range m, F (2 * s + 1) := by
  induction m with
  | zero => simp
  | succ m ih =>
    rw [show 2 * (m + 1) = (2 * m) + 1 + 1 by ring, Finset.sum_range_succ, Finset.sum_range_succ,
      ih, Finset.sum_range_succ, Finset.sum_range_succ]
    abel

theorem dft_combine {x : List ℂ} {m : ℕ} (hm : 1 ≤ m) (hx : x.length = 2 * m) :
    combine (dft (evens x)) (dft (odds x)) (2 * m) = dft x := by
  have hev : (evens x).length = m := by rw [length_evens, hx]; omega
  have hod : (odds x).length = m := by rw [length_odds, hx]; omega
  have hdiv : 2 * m / 2 = m := by omega
  have hEg : ∀ j, j < m → (dft (evens x)).getD j 0
      = ∑ s ∈ Finset.range m, uroot m ^ (j * s) * x.getD (2 * s) 0 := by
    intro j hj
    rw [dft_getD (by rw [hev]; exact hj), hev]
    exact Finset.sum_congr rfl (fun s _ => by rw [getD_evens])
  have hOg : ∀ j, j < m → (dft (odds x)).getD j 0
      = ∑ s ∈ Finset.range m, uroot m ^ (j * s) * x.getD (2 * s + 1) 0 := by
    intro j hj
    rw [dft_getD (by rw [hod]; exact hj), hod]
    exact Finset.sum_congr rfl (fun s _ => by rw [getD_odds])
  rw [combine]
  conv_rhs => rw [dft, hx]
  apply List.map_congr_left
  intro j hj
  rw [List.mem_range] at hj
  dsimp only
  have hRHS : (∑ t ∈ Finset.range (2 * m),
        twiddle (-2 * π * j * t / ((2 * m : ℕ) : ℝ)) * x.getD t 0)
      = (∑ s ∈ Finset.range m, uroot (2 * m) ^ (j * (2 * s)) * x.getD (2 * s) 0)
        + ∑ s ∈ Finset.range m, uroot (2 * m) ^ (j * (2 * s + 1)) * x.getD (2 * s + 1) 0 := by
    rw [sum_range_even_odd (fun t => twiddle (-2 * π * j * t / ((2 * m : ℕ) : ℝ)) * x.getD t 0) m]
    congr 1
    · exact Finset.sum_congr rfl (fun s _ => by rw [twiddle_dft_angle (2 * m) j (2 * s)])
    · exact Finset.sum_congr rfl (fun s _ => by rw [twiddle_dft_angle (2 * m) j (2 * s + 1)])
  rw [hRHS, hdiv]
  by_cases hjm : j < m
  · rw [if_pos hjm, hEg j hjm, hOg j hjm, twiddle_combine_angle (2 * m) j]
    have h1 : ∀ s : ℕ, uroot (2 * m) ^ (j * (2 * s)) = uroot m ^ (j * s) := by
      intro s
      rw [show j * (2 * s) = 2 * (j * s) by ring, pow_mul, uroot_two_mul_sq hm]
    have h2 : ∀ s : ℕ, uroot (2 * m) ^ (j * (2 * s + 1))
        = uroot m ^ (j * s) * uroot (2 * m) ^ j := by
      intro s
      rw [show j * (2 * s + 1) = 2 * (j * s) + j by ring, pow_add, pow_mul, uroot_two_mul_sq hm]
    have e1 : (∑ s ∈ Finset.range m, uroot (2 * m) ^ (j * (2 * s)) * x.getD (2 * s) 0)
        = ∑ s ∈ Finset.range m, uroot m ^ (j * s) * x.getD (2 * s) 0 :=
      Finset.sum_congr rfl (fun s _ => by rw [h1 s])
    have e2 : (∑ s ∈ Finset.range m, uroot (2 * m) ^ (j * (2 * s + 1)) * x.getD (2 * s + 1) 0)
        = uroot (2 * m) ^ j * ∑ s ∈ Finset.range m, uroot m ^ (j * s) * x.getD (2 * s + 1) 0 := by
      rw [Finset.mul_sum]
      exact Finset.sum_congr rfl (fun s _ => by rw [h2 s]; ring)
    rw [e1, e2]
  · have hk : j - m < m := by omega
    rw [if_neg hjm, if_pos hk]
    set k := j - m with hkdef
    have hjk : j = k + m := by omega
    rw [hEg k hk, hOg k hk, twiddle_combine_angle (2 * m) k]
    have hms : ∀ s : ℕ, uroot m ^ (m * s) = 1 := by
      intro s
      rw [pow_mul, uroot_pow_self hm, one_pow]
    have h1 : ∀ s : ℕ, uroot (2 * m) ^ (j * (2 * s)) = uroot m ^ (k * s) := by
      intro s
      rw [show j * (2 * s) = 2 * ((k + m) * s) by rw [hjk]; ring, pow_mul, uroot_two_mul_sq hm,
        show (k + m) * s = k * s + m * s by ring, pow_add, hms s, mul_one]
    have h2 : ∀ s : ℕ, uroot (2 * m) ^ (j * (2 * s + 1))
        = -(uroot m ^ (k * s) * uroot (2 * m) ^ k) := by
      intro s
      rw [show j * (2 * s + 1) = 2 * ((k + m) * s) + k + m by rw [hjk]; ring, pow_add, pow_add,
        pow_mul, uroot_two_mul_sq hm, uroot_two_mul_pow_half hm,
        show (k + m) * s = k * s + m * s by ring, pow_add, hms s, mul_one]
      ring
    have e1 : (∑ s ∈ Finset.range m, uroot (2 * m) ^ (j * (2 * s)) * x.getD (2 * s) 0)
        = ∑ s ∈ Finset.range m, uroot m ^ (k * s) * x.getD (2 * s) 0 :=
      Finset.sum_congr rfl (fun s _ => by rw [h1 s])
    have e2 : (∑ s ∈ Finset.range m, uroot (2 * m) ^ (j * (2 * s + 1)) * x.getD (2 * s + 1) 0)
        = -(uroot (2 * m) ^ k * ∑ s ∈ Finset.range m, uroot m ^ (k * s) * x.getD (2 * s + 1) 0) := by
      rw [Finset.mul_sum, ← Finset.sum_neg_distrib]
      exact Finset.sum_congr rfl (fun s _ => by rw [h2 s]; ring)
    rw [e1, e2]
    ring

theorem dft_singleton (a : ℂ) : dft [a] = [a] := by
  simp [dft, Finset.sum_range_one, twiddle_zero]

/-- On every power-of-two length the recursive radix-2 `fft` computes exactly
the naive `dft`. -/
theorem fft_eq_dft {x : List ℂ} {K : ℕ} (hx : x.length = 2 ^ K) : fft x = dft x := by
  induction K generalizing x with
  | zero =>
    have h1 : x.length = 1 := by rw [hx]; rfl
    obtain ⟨a, rfl⟩ := List.length_eq_one.mp h1
    rw [fft_base h1, dft_singleton]
  | succ K ih =>
    have hpow : 1 ≤ 2 ^ K := Nat.one_le_two_pow
    have h2 : 2 ≤ x.length := by rw [hx, pow_succ]; omega
    have hm : x.length = 2 * 2 ^ K := by rw [hx]; ring
    have hev : (evens x).length = 2 ^ K := by rw [length_evens, hm]; omega
    have hod : (odds x).length = 2 ^ K := by rw [length_odds, hm]; omega
    rw [fft_rec h2, ih hev, ih hod, hm, dft_combine hpow hm]

/-! ### Inversion -/

theorem idft_length (y : List ℂ) : (idft y).length = y.length := by
  simp [idft]

theorem ifft_length {y : List ℂ} (h1 : 1 ≤ y.length) : (ifft y).length = y.length := by
  rw [ifft]
  simp only [List.length_map]
  rw [fft_length (by simpa using h1)]
  simp

theorem idft_getD {y : List ℂ} {k : ℕ} (hk : k < y.length) :
    (idft y).getD k 0
      = (∑ t ∈ Finset.range y.length, iuroot y.length ^ (k * t) * y.getD t 0) / y.length := by
  rw [idft, getD_map_range _ hk]
  congr 1
  exact Finset.sum_congr rfl (fun t _ => by rw [twiddle_idft_angle])

theorem getD_map_conj (y : List ℂ) (t : ℕ) :
    (y.map (starRingEnd ℂ)).getD t 0 = (starRingEnd ℂ) (y.getD t 0) := by
  rcases lt_or_le t y.length with h | h
  · rw [List.getD_eq_getElem _ _ (by simpa using h), List.getD_eq_getElem _ _ h, List.getElem_map]
  · rw [List.getD_eq_default _ _ (by simpa using h), List.getD_eq_default _ _ h, map_zero]

theorem conj_uroot_pow (n e : ℕ) : (starRingEnd ℂ) (uroot n ^ e) = iuroot n ^ e := by
  rw [map_pow, uroot, iuroot, conj_twiddle]
  congr 1
  ring

/-- The naive inverse transform inverts the naive forward transform. -/
theorem idft_dft {x : List ℂ} (h1 : 1 ≤ x.length) : idft (dft x) = x := by
  have hn' : (x.length : ℂ) ≠ 0 := Nat.cast_ne_zero.mpr (by omega)
  have hlen : (dft x).length = x.length := dft_length x
  apply List.ext_getElem (by rw [idft_length, hlen])
  intro i hi₁ hi₂
  have hi : i < x.length := hi₂
  rw [← List.getD_eq_getElem _ 0 hi₁, ← List.getD_eq_getElem _ 0 hi₂]
  rw [idft_getD (by rw [hlen]; exact hi)]
  simp only [hlen]
  have hinner : ∀ t, t < x.length → (dft x).getD t 0
      = ∑ s ∈ Finset.range x.length, uroot x.length ^ (t * s) * x.getD s 0 :=
    fun t ht => dft_getD ht
  rw [Finset.sum_congr rfl (fun t ht => by
    rw [hinner t (Finset.mem_range.mp ht), Finset.mul_sum])]
  rw [Finset.sum_comm]
  have hswap : ∀ s ∈ Finset.range x.length,
      (∑ t ∈ Finset.range x.length, iuroot x.length ^ (i * t) * (uroot x.length ^ (t * s) * x.getD s 0))
        = (if s % x.length = i then (x.length : ℂ) else 0) * x.getD s 0 := by
    intro s _
    calc ∑ t ∈ Finset.range x.length,
          iuroot x.length ^ (i * t) * (uroot x.length ^ (t * s) * x.getD s 0)
        = (∑ t ∈ Finset.range x.length,
            iuroot x.length ^ (i * t) * uroot x.length ^ (t * s)) * x.getD s 0 := by
          rw [Finset.sum_mul]
          exact Finset.sum_congr rfl (fun t _ => by ring)
      _ = (if s % x.length = i then (x.length : ℂ) else 0) * x.getD s 0 := by
          rw [sum_iuroot_uroot h1 s hi]
  rw [Finset.sum_congr rfl hswap]
  have hmod : ∀ s ∈ Finset.range x.length,
      (if s % x.length = i then (x.length : ℂ) else 0) * x.getD s 0
        = if s = i then (x.length : ℂ) * x.getD s 0 else 0 := by
    intro s hs
    rw [Nat.mod_eq_of_lt (Finset.mem_range.mp hs)]
    split <;> simp
  rw [Finset.sum_congr rfl hmod, Finset.sum_ite_eq' (Finset.range x.length) i
    (fun s => (x.length : ℂ) * x.getD s 0), if_pos (Finset.mem_range.mpr hi)]
  field_simp

/-- On power-of-two lengths the conjugate-trick `ifft` computes exactly the
naive `idft`. -/
theorem ifft_eq_idft {y : List ℂ} {K : ℕ} (hy : y.length = 2 ^ K) : ifft y = idft y := by
  have h1 : 1 ≤ y.length := by rw [hy]; exact Nat.one_le_two_pow
  have hc : (y.map (starRingEnd ℂ)).length = 2 ^ K := by simpa using hy
  have hclen : (y.map (starRingEnd ℂ)).length = y.length := by simp
  rw [ifft, fft_eq_dft hc]
  apply List.ext_getElem (by simp [dft_length, idft_length])
  intro i hi₁ hi₂
  have hi : i < y.length := by rw [idft_length] at hi₂; exact hi₂
  rw [← List.getD_eq_getElem _ 0 hi₁, ← List.getD_eq_getElem _ 0 hi₂]
  rw [idft_getD hi]
  have hd : i < ((dft (y.map (starRingEnd ℂ))).map (starRingEnd ℂ)).length := by
    simp [dft_length, hclen, hi]
  rw [List.getD_eq_getElem _ 0 (by simpa using hd)]
  rw [List.getElem_map]
  have hd2 : i < (dft (y.map (starRingEnd ℂ))).length := by simp [dft_length, hclen, hi]
  rw [List.getElem_map]
  rw [← List.getD_eq_getElem _ 0 hd2]
  rw [dft_getD (by rw [dft_length] at hd2; exact hd2)]
  rw [hclen]
  congr 1
  rw [map_sum]
  refine Finset.sum_congr rfl (fun t _ => ?_)
  rw [map_mul, conj_uroot_pow, getD_map_conj, Complex.conj_conj]

/-- FFT round trip on power-of-two lengths: `ifft (fft x) = x`. -/
theorem ifft_fft {x : List ℂ} {K : ℕ} (hx : x.length = 2 ^ K) : ifft (fft x) = x := by
  have h1 : 1 ≤ x.length := by rw [hx]; exact Nat.one_le_two_pow
  have hlen : (fft x).length = 2 ^ K := by rw [fft_length h1, hx]
  rw [ifft_eq_idft hlen, fft_eq_dft hx, idft_dft h1]

/-- Real round trip on power-of-two lengths: `irfft (rfft x) = x`. -/
theorem irfft_rfft {x : List ℝ} {K : ℕ} (hx : x.length = 2 ^ K) : irfft (rfft x) = x := by
  have hc : (x.map (fun r : ℝ => (r : ℂ))).length = 2 ^ K := by simpa using hx
  rw [irfft, rfft, ifft_fft hc, List.map_map]
  have hid : (Complex.re ∘ fun r : ℝ => (r : ℂ)) = id := by
    funext r
    simp
  rw [hid, List.map_id]

/-! ### Row sums and conjugate symmetry (for the S-transform) -/

theorem sum_idft (y : List ℂ) (h1 : 1 ≤ y.length) : (idft y).sum = y.getD 0 0 := by
  have hn' : (y.length : ℂ) ≠ 0 := Nat.cast_ne_zero.mpr (by omega)
  rw [idft, sum_list_range]
  have hterm : ∀ k : ℕ,
      (∑ t ∈ Finset.range y.length,
        twiddle (2 * π * (k : ℝ) * (t : ℝ) / (y.length : ℝ)) * y.getD t 0)
      = ∑ t ∈ Finset.range y.length, iuroot y.length ^ (k * t) * y.getD t 0 :=
    fun k => Finset.sum_congr rfl (fun t _ => by rw [twiddle_idft_angle])
  calc ∑ k ∈ Finset.range y.length,
        (∑ t ∈ Finset.range y.length,
          twiddle (2 * π * (k : ℝ) * (t : ℝ) / (y.length : ℝ)) * y.getD t 0) / y.length
      = (∑ k ∈ Finset.range y.length,
          ∑ t ∈ Finset.range y.length, iuroot y.length ^ (k * t) * y.getD t 0) / y.length := by
        rw [← Finset.sum_div]
        congr 1
        exact Finset.sum_congr rfl (fun k _ => hterm k)
    _ = (∑ t ∈ Finset.range y.length,
          (∑ k ∈ Finset.range y.length, iuroot y.length ^ (t * k) * uroot y.length ^ (k * 0))
            * y.getD t 0) / y.length := by
        rw [Finset.sum_comm]
        congr 1
        refine Finset.sum_congr rfl (fun t _ => ?_)
        rw [Finset.sum_mul]
        exact Finset.sum_congr rfl (fun k _ => by
          rw [Nat.mul_zero, pow_zero, mul_one, mul_comm k t])
    _ = y.getD 0 0 := by
        have hzero : ∀ t ∈ Finset.range y.length,
            (∑ k ∈ Finset.range y.length, iuroot y.length ^ (t * k) * uroot y.length ^ (k * 0))
              * y.getD t 0
            = if 0 = t then (y.length : ℂ) * y.getD t 0 else 0 := by
          intro t ht
          rw [sum_iuroot_uroot h1 0 (Finset.mem_range.mp ht), Nat.zero_mod, ite_mul, zero_mul]
        rw [Finset.sum_congr rfl hzero, Finset.sum_ite_eq (Finset.range y.length) 0
          (fun t => (y.length : ℂ) * y.getD t 0), if_pos (Finset.mem_range.mpr (by omega))]
        field_simp

theorem twiddle_ne_zero (θ : ℝ) : twiddle θ ≠ 0 := by
  intro h
  have h1 : twiddle θ * twiddle (-θ) = 1 := by
    rw [← twiddle_add, show θ + -θ = 0 by ring, twiddle_zero]
  rw [h, zero_mul] at h1
  exact zero_ne_one h1

theorem iuroot_pow_self {n : ℕ} (hn : 1 ≤ n) : iuroot n ^ n = 1 := by
  have hn' : (n : ℝ) ≠ 0 := Nat.cast_ne_zero.mpr (by omega)
  rw [iuroot, twiddle_pow, show (n : ℝ) * (2 * π / n) = (1 : ℤ) * (2 * π) by
    push_cast; field_simp, twiddle_int_two_pi]

theorem uroot_mul_iuroot (n : ℕ) : uroot n * iuroot n = 1 := by
  rw [uroot, iuroot, ← twiddle_add, show (-2 * π / (n : ℝ) + 2 * π / n) = 0 by ring, twiddle_zero]

theorem iuroot_pow_sub {n i : ℕ} (hn : 1 ≤ n) (hi : i ≤ n) :
    iuroot n ^ (n - i) = uroot n ^ i := by
  have hne : iuroot n ^ i ≠ 0 := pow_ne_zero _ (by rw [iuroot]; exact twiddle_ne_zero _)
  apply mul_right_cancel₀ hne
  rw [← pow_add, Nat.sub_add_cancel hi, iuroot_pow_self hn, ← mul_pow, uroot_mul_iuroot, one_pow]

theorem getD_map_ofReal (x : List ℝ) (t : ℕ) :
    (x.map (fun r : ℝ => (r : ℂ))).getD t 0 = ((x.getD t 0 : ℝ) : ℂ) := by
  rcases lt_or_le t x.length with h | h
  · rw [List.getD_eq_getElem _ _ (by simpa using h), List.getD_eq_getElem _ _ h, List.getElem_map]
  · rw [List.getD_eq_default _ _ (by simpa using h), List.getD_eq_default _ _ h, Complex.ofReal_zero]

/-- Conjugate symmetry of the spectrum of a real signal:
`conj (dft x)[n-i] = (dft x)[i]` for `1 ≤ i < n`. -/
theorem dft_real_conj_symm (x : List ℝ) {i : ℕ} (hi1 : 1 ≤ i) (hi2 : i < x.length) :
    (starRingEnd ℂ) ((dft (x.map (fun r : ℝ => (r : ℂ)))).getD (x.length - i) 0)
      = (dft (x.map (fun r : ℝ => (r : ℂ)))).getD i 0 := by
  have h1 : 1 ≤ x.length := by omega
  have hlen : (x.map (fun r : ℝ => (r : ℂ))).length = x.length := by simp
  have hni : x.length - i < x.length := by omega
  rw [dft_getD (by rw [hlen]; exact hni), dft_getD (by rw [hlen]; exact hi2), hlen, map_sum]
  refine Finset.sum_congr rfl (fun t _ => ?_)
  rw [map_mul, conj_uroot_pow, getD_map_ofReal, Complex.conj_ofReal]
  congr 1
  rw [pow_mul, iuroot_pow_sub h1 (le_of_lt hi2), ← pow_mul]

theorem sum_ifft {y : List ℂ} {K : ℕ} (hy : y.length = 2 ^ K) : (ifft y).sum = y.getD 0 0 := by
  rw [ifft_eq_idft hy]
  exact sum_idft y (by rw [hy]; exact Nat.one_le_two_pow)

/-- `ist` inverts `st` on real signals of power-of-two length at least 2. -/
theorem ist_st {x : List ℝ} {K : ℕ} (hK : 1 ≤ K) (hx : x.length = 2 ^ K) :
    ist (st x) = x := by
  have hn1 : 1 ≤ x.length := by rw [hx]; exact Nat.one_le_two_pow
  have hn2 : 2 ≤ x.length := by
    rw [hx]
    calc 2 = 2 ^ 1 := by norm_num
    _ ≤ 2 ^ K := Nat.pow_le_pow_right (by norm_num) hK
  have hhalf : x.length / 2 + x.length / 2 = x.length := by
    obtain ⟨K', rfl⟩ : ∃ K', K = K' + 1 := ⟨K - 1, by omega⟩
    have h2 : x.length = 2 * 2 ^ K' := by rw [hx]; ring
    omega
  have hxc : (x.map (fun r : ℝ => (r : ℂ))).length = x.length := by simp
  have hxc2 : (x.map (fun r : ℝ => (r : ℂ))).length = 2 ^ K := by rw [hxc, hx]
  have hH : fft (x.map (fun r : ℝ => (r : ℂ))) = dft (x.map (fun r : ℝ => (r : ℂ))) :=
    fft_eq_dft hxc2
  set n := x.length with hndef
  set xc := x.map (fun r : ℝ => (r : ℂ)) with hxcdef
  set H := dft xc with hHdef
  have hHlen : H.length = n := by rw [hHdef, dft_length, hxc]
  have hst : st x = (List.replicate n (((x.sum / (n : ℝ)) : ℝ) : ℂ)) ::
      (List.range (n / 2)).map (fun f0 =>
        ifft ((List.range n).map (fun i =>
          H.getD ((i + (f0 + 1)) % n) 0 * (((wgauss n (f0 + 1)).getD i 0 : ℝ) : ℂ)))) := by
    simp only [st, ← hxcdef, ← hndef, hH]
  set row0 : List ℂ := List.replicate n (((x.sum / (n : ℝ)) : ℝ) : ℂ) with hrow0
  set rows : List (List ℂ) := (List.range (n / 2)).map (fun f0 =>
    ifft ((List.range n).map (fun i =>
      H.getD ((i + (f0 + 1)) % n) 0 * (((wgauss n (f0 + 1)).getD i 0 : ℝ) : ℂ)))) with hrows
  have hrow0len : row0.length = n := by rw [hrow0, List.length_replicate]
  have hsum0 : row0.sum = H.getD 0 0 := by
    rw [hrow0, List.sum_replicate, nsmul_eq_mul]
    rw [hHdef, dft_getD (by rw [hxc]; omega), hxc]
    have hterm : ∀ t ∈ Finset.range n, uroot n ^ (0 * t) * xc.getD t 0
        = ((x.getD t 0 : ℝ) : ℂ) := by
      intro t _
      rw [Nat.zero_mul, pow_zero, one_mul, hxcdef, getD_map_ofReal]
    rw [Finset.sum_congr rfl hterm, ← Complex.ofReal_sum]
    have hsum : (∑ t ∈ Finset.range n, x.getD t 0) = x.sum := by
      rw [list_sum_eq_sum_range]
    rw [hsum]
    have hnne : (n : ℂ) ≠ 0 := Nat.cast_ne_zero.mpr (by omega)
    push_cast
    field_simp
  have hwg0 : ∀ f : ℕ, (wgauss n f).getD 0 0 = 1 := by
    intro f
    rw [wgauss, getD_map_range _ (by omega)]
    simp [gauss]
  have hsumf : ∀ f0 : ℕ, f0 + 1 ≤ n / 2 →
      (ifft ((List.range n).map (fun i =>
        H.getD ((i + (f0 + 1)) % n) 0 * (((wgauss n (f0 + 1)).getD i 0 : ℝ) : ℂ)))).sum
      = H.getD (f0 + 1) 0 := by
    intro f0 hf
    rw [sum_ifft (by rw [List.length_map, List.length_range]; exact hx)]
    rw [getD_map_range _ (by omega : 0 < n)]
    rw [Nat.zero_add, Nat.mod_eq_of_lt (by omega), hwg0, Complex.ofReal_one, mul_one]
  have hrowSum : ∀ f, f ≤ n / 2 → ((row0 :: rows).getD f []).sum = H.getD f 0 := by
    intro f hf
    cases f with
    | zero => rw [List.getD_cons_zero]; exact hsum0
    | succ f0 =>
      rw [List.getD_cons_succ, hrows, getD_map_range _ (by omega : f0 < n / 2)]
      exact hsumf f0 hf
  have hrowslen : rows.length = n / 2 := by rw [hrows, List.length_map, List.length_range]
  rw [hst]
  simp only [ist, List.headD_cons, hrow0len, List.length_cons, hrowslen, List.length_map,
    List.length_range]
  have hresult : (List.range n).map (fun i =>
      if n / 2 + 1 ≤ i then
        (starRingEnd ℂ) (if n - i < n / 2 + 1 then ((row0 :: rows).getD (n - i) []).sum else 0)
      else if i < n / 2 + 1 then ((row0 :: rows).getD i []).sum else 0) = H := by
    conv_rhs => rw [list_eq_map_range_getD 0 H, hHlen]
    apply List.map_congr_left
    intro i hi
    rw [List.mem_range] at hi
    by_cases hcase : n / 2 + 1 ≤ i
    · rw [if_pos hcase, if_pos (by omega), hrowSum (n - i) (by omega)]
      rw [hHdef, hxcdef]
      exact dft_real_conj_symm x (by omega) (by omega)
    · rw [if_neg hcase, if_pos (by omega), hrowSum i (by omega)]
  rw [hresult, ← hH, ifft_fft hxc2, hxcdef, List.map_map]
  have hid : (Complex.re ∘ fun r : ℝ => (r : ℂ)) = id := by
    funext r
    simp
  rw [hid, List.map_id]

/-! ### Lengths of the remaining operations, and divergence on the empty input -/

theorem fftF_nil : ∀ fuel : ℕ, fftF fuel ([] : List ℂ) = none
  | 0 => rfl
  | fuel + 1 => by
    rw [fftF]
    simp only [List.length_nil, if_neg (by norm_num : ¬(0 : ℕ) = 1)]
    rw [show evens ([] : List ℂ) = [] from rfl, show odds ([] : List ℂ) = [] from rfl,
      fftF_nil fuel]

theorem rfft_length {x : List ℝ} (h : 1 ≤ x.length) : (rfft x).length = x.length := by
  rw [rfft, fft_length (by simpa using h)]
  simp

theorem irfft_length {y : List ℂ} (h : 1 ≤ y.length) : (irfft y).length = y.length := by
  rw [irfft, List.length_map, ifft_length h]

theorem irdft_length (y : List ℂ) : (irdft y).length = y.length := by
  simp [irdft]

theorem st_length (x : List ℝ) : (st x).length = x.length / 2 + 1 := by
  simp [st]

theorem st_row_length {x : List ℝ} (h1 : 1 ≤ x.length) :
    ∀ row ∈ st x, row.length = x.length := by
  intro row hrow
  simp only [st, List.mem_cons, List.mem_map, List.mem_range] at hrow
  rcases hrow with h | ⟨f0, _, hrowf⟩
  · rw [h, List.length_replicate]
  · rw [← hrowf, ifft_length (by simpa using h1)]
    simp

/-! ### The short-time transform -/

theorem le_nextPowTwo (n : ℕ) : n ≤ nextPowTwo n :=
  Nat.le_pow_clog (by norm_num) n

theorem stft_frame_eq (x : List ℝ) (ws hs : ℕ) (hws : 1 ≤ ws) {i : ℕ}
    (hbound : i * hs + ws ≤ x.length) :
    List.zipWith (· * ·) ((x.drop (i * hs)).take ws)
        ((List.range ws).map (fun j : ℕ => Real.sin (π * ((j : ℝ) + 0.5) / (ws : ℝ))))
      ++ List.replicate (nextPowTwo ws - ws) 0
    = (List.range (nextPowTwo ws)).map (fun j =>
        if j < ws then x.getD (i * hs + j) 0 * specWindow ws j else 0) := by
  have hnp : ws ≤ nextPowTwo ws := le_nextPowTwo ws
  have hzlen : (List.zipWith (· * ·) ((x.drop (i * hs)).take ws)
      ((List.range ws).map (fun j : ℕ => Real.sin (π * ((j : ℝ) + 0.5) / (ws : ℝ))))).length
      = ws := by
    rw [List.length_zipWith, List.length_take, List.length_drop, List.length_map,
      List.length_range]
    omega
  apply List.ext_getElem
  · simp only [List.length_append, List.length_replicate, List.length_map, List.length_range,
      hzlen]
    omega
  intro j hj1 hj2
  have hjnp : j < nextPowTwo ws := by simpa using hj2
  simp only [List.getElem_map, List.getElem_range]
  rcases lt_or_le j ws with hjws | hjws
  · rw [List.getElem_append_left (by rw [hzlen]; exact hjws)]
    rw [List.getElem_zipWith]
    rw [if_pos hjws]
    have hjtake : j < ((x.drop (i * hs)).take ws).length := by
      rw [List.length_take, List.length_drop]
      omega
    rw [List.getElem_take, List.getElem_drop]
    rw [List.getElem_map, List.getElem_range]
    rw [List.getD_eq_getElem _ _ (by omega : i * hs + j < x.length)]
    rfl
  · rw [List.getElem_append_right (by rw [hzlen]; exact hjws)]
    rw [List.getElem_replicate, if_neg (by omega)]

/-! ### Concrete evaluations -/

theorem fft_singleton (a : ℂ) : fft [a] = [a] := fft_base rfl

theorem twiddle_neg_two_pi_div_four : twiddle (-(2 * π) / 4) = -Complex.I := by
  rw [show (-(2 * π) / 4 : ℝ) = -(π / 2) by ring]
  apply Complex.ext <;>
    simp [twiddle, Real.cos_pi_div_two, Real.sin_pi_div_two]

theorem fft_two (a b : ℂ) : fft [a, b] = [a + b, a - b] := by
  rw [fft_rec (by norm_num), show evens [a, b] = [a] from rfl, show odds [a, b] = [b] from rfl,
    fft_singleton, fft_singleton]
  norm_num [combine, show List.range 2 = [0, 1] from rfl, twiddle_zero]

theorem fft_four (a b c d : ℂ) :
    fft [a, b, c, d] = [a + c + (b + d), a - c + -Complex.I * (b - d),
      a + c - (b + d), a - c - -Complex.I * (b - d)] := by
  rw [fft_rec (by norm_num), show evens [a, b, c, d] = [a, c] from rfl,
    show odds [a, b, c, d] = [b, d] from rfl, fft_two, fft_two]
  norm_num [combine, show List.range 4 = [0, 1, 2, 3] from rfl, twiddle_zero,
    twiddle_neg_two_pi_div_four]

theorem re_div_nat (z : ℂ) (n : ℕ) : (z / (n : ℂ)).re = z.re / n := by
  rw [div_eq_mul_inv, ← Complex.ofReal_natCast, ← Complex.ofReal_inv, Complex.mul_re,
    Complex.ofReal_re, Complex.ofReal_im, mul_zero, sub_zero, div_eq_mul_inv]

theorem fft_one_zero_zero : fft [(1 : ℂ), 0, 0] = [1, 1, 0] := by
  rw [fft_rec (by norm_num), show evens [(1 : ℂ), 0, 0] = [1, 0] from rfl,
    show odds [(1 : ℂ), 0, 0] = [0] from rfl, fft_two, fft_singleton]
  norm_num [combine, show List.range 3 = [0, 1, 2] from rfl, twiddle_zero]

/-! ### Claim theorems -/

/-- C1 (counterexample): on the non-power-of-two length 3 the fast transform
does not match the naive reference transform — at index 2, `fft [1,0,0]`
yields `0` while `dft [1,0,0]` yields `1`, a discrepancy of a full unit, far
beyond any floating tolerance.  The radix-2 combination loop only writes
indices `k` and `k + n/2` for `k < n/2`, so for odd `n` the last index keeps
its initial zero. -/
theorem C1_counterexample :
    (fft [(1 : ℂ), 0, 0]).getD 2 0 = 0 ∧ (dft [(1 : ℂ), 0, 0]).getD 2 0 = 1 := by
  constructor
  · rw [fft_one_zero_zero]
    rfl
  · rw [dft_getD (by norm_num)]
    norm_num [Finset.sum_range_succ]

/-- C1 (amended): for every power-of-two length `2^K` and every complex input
`x` of that length, `fft x` is (in the exact-arithmetic model) elementwise
equal to the naive reference `dft x`.  The original claim extended this to
every `n ≥ 1`, which the counterexample at `n = 3` refutes. -/
theorem C1_theorem (x : List ℂ) (K : ℕ) (hx : x.length = 2 ^ K) : fft x = dft x :=
  fft_eq_dft hx

/-- C1 witness: the amended theorem applied at the concrete input `[1, 2]`. -/
theorem C1_witness :
    ([(1 : ℂ), 2] : List ℂ).length = 2 ^ 1 ∧ fft [(1 : ℂ), 2] = dft [(1 : ℂ), 2] :=
  ⟨rfl, C1_theorem [(1 : ℂ), 2] 1 rfl⟩

/-- C2: for every power-of-two length and every real signal `x` of that
length, `irfft (rfft x) = x` (exactly, in the exact-arithmetic model; the
source's `1e-5` tolerance absorbs the floating rounding). -/
theorem C2_theorem (x : List ℝ) (K : ℕ) (hx : x.length = 2 ^ K) : irfft (rfft x) = x :=
  irfft_rfft hx

/-- C2 witness: the round trip at the concrete signal `[1, 2]`. -/
theorem C2_witness :
    ([(1 : ℝ), 2] : List ℝ).length = 2 ^ 1 ∧ irfft (rfft [(1 : ℝ), 2]) = [(1 : ℝ), 2] :=
  ⟨rfl, C2_theorem [(1 : ℝ), 2] 1 rfl⟩

/-- C3 (code bug): the claim demands `freqs(4, 4)[2] = (2 - 4)·4/4 = -2`, the
signed negative frequency.  The source computes `i - n` on `usize`, which
wraps modulo `2^64` (and panics in debug builds), so the entry comes out as
`(2^64 - 2) · 4/4 = 18446744073709551614`, not `-2`. -/
theorem C3_theorem :
    (freqs 4 4).getD 2 0 = 18446744073709551614
    ∧ (freqs 4 4).getD 2 0 ≠ ((2 : ℝ) - 4) * 4 / 4 := by
  have hval : (freqs 4 4).getD 2 0 = 18446744073709551614 := by
    simp only [freqs]
    rw [getD_map_range _ (by norm_num)]
    rw [if_neg (by norm_num)]
    rw [show ((((2 : ℕ) : ℤ) - ((4 : ℕ) : ℤ)) % (2 ^ 64 : ℤ)).toNat
      = 18446744073709551614 from by decide]
    norm_num
  exact ⟨hval, by rw [hval]; norm_num⟩

/-- C5: for every real signal of power-of-two length at least 2, applying
`ist` to `st x` (summing each frequency row across time, mirroring the upper
half of the spectrum by conjugate symmetry, inverse-transforming and keeping
real parts) reconstructs `x` exactly in the exact-arithmetic model. -/
theorem C5_theorem (x : List ℝ) (K : ℕ) (hK : 1 ≤ K) (hx : x.length = 2 ^ K) :
    ist (st x) = x :=
  ist_st hK hx

/-- C5 witness: the S-transform round trip at the concrete signal `[1, 2]`. -/
theorem C5_witness :
    (1 ≤ 1 ∧ ([(1 : ℝ), 2] : List ℝ).length = 2 ^ 1)
    ∧ ist (st [(1 : ℝ), 2]) = [(1 : ℝ), 2] :=
  ⟨⟨le_refl 1, rfl⟩, C5_theorem [(1 : ℝ), 2] 1 (le_refl 1) rfl⟩

/-- C6: under the preconditions `window_size ≥ 1`, `hop_size ≥ 1` and
`len(x) ≥ window_size`, `stft` succeeds and returns a spectrogram with
exactly `(len(x) - window_size)/hop_size + 1` rows and
`next_power_of_two(window_size)` columns, whose row `i` is the `rfft` of the
sine-windowed frame starting at `i·hop_size`, zero-padded to the power-of-two
length. -/
theorem C6_theorem (x : List ℝ) (ws hs : ℕ) (hws : 1 ≤ ws) (hhs : 1 ≤ hs)
    (hlen : ws ≤ x.length) :
    ∃ M, stft x ws hs = some M
      ∧ M.length = (x.length - ws) / hs + 1
      ∧ (∀ row ∈ M, row.length = nextPowTwo ws)
      ∧ ∀ i < (x.length - ws) / hs + 1, M.getD i [] = specStftRow x ws hs (nextPowTwo ws) i := by
  have hnp : ws ≤ nextPowTwo ws := le_nextPowTwo ws
  have hbound : ∀ i, i < (x.length - ws) / hs + 1 → i * hs + ws ≤ x.length := by
    intro i hi
    have h1 : i ≤ (x.length - ws) / hs := by omega
    have h2 : i * hs ≤ (x.length - ws) / hs * hs := Nat.mul_le_mul_right hs h1
    have h3 : (x.length - ws) / hs * hs ≤ x.length - ws := Nat.div_mul_le_self _ _
    omega
  refine ⟨(List.range ((x.length - ws) / hs + 1)).map (fun i =>
    rfft ((List.range (nextPowTwo ws)).map (fun j =>
      if j < ws then x.getD (i * hs + j) 0 * specWindow ws j else 0))), ?_, ?_, ?_, ?_⟩
  · simp only [stft]
    rw [if_pos (show ws ≤ x.length ∧ 0 < hs from And.intro hlen hhs)]
    congr 1
    apply List.map_congr_left
    intro i hi
    rw [List.mem_range] at hi
    rw [stft_frame_eq x ws hs hws (hbound i hi)]
  · simp
  · intro row hrow
    rw [List.mem_map] at hrow
    obtain ⟨i, _, hrowi⟩ := hrow
    rw [← hrowi, rfft_length (by simp; omega)]
    simp
  · intro i hi
    rw [getD_map_range _ hi]
    rfl

/-- C6 witness: the spectrogram contract at the concrete signal `[1, 2]` with
window size 1 and hop size 1. -/
theorem C6_witness :
    (1 ≤ 1 ∧ 1 ≤ 1 ∧ 1 ≤ ([(1 : ℝ), 2] : List ℝ).length)
    ∧ ∃ M, stft [(1 : ℝ), 2] 1 1 = some M
      ∧ M.length = (([(1 : ℝ), 2] : List ℝ).length - 1) / 1 + 1
      ∧ (∀ row ∈ M, row.length = nextPowTwo 1)
      ∧ ∀ i < (([(1 : ℝ), 2] : List ℝ).length - 1) / 1 + 1,
          M.getD i [] = specStftRow [(1 : ℝ), 2] 1 1 (nextPowTwo 1) i :=
  ⟨⟨le_refl 1, le_refl 1, by norm_num⟩,
    C6_theorem [(1 : ℝ), 2] 1 1 (le_refl 1) (le_refl 1) (by norm_num)⟩

/-- C7 (counterexample): the claim's formula `Re(conj(ifft(conj X)))`
disagrees with the source's `irfft` at `X = [0, i, 0, 0]`: the source
(`Re ∘ ifft`, no extra conjugations) gives `-1/4` at index 1, while the
claim's formula gives `1/4` there. -/
theorem C7_counterexample :
    (irfft [0, Complex.I, 0, 0]).getD 1 0 = -(1 / 4)
    ∧ ((ifft (([0, Complex.I, 0, 0] : List ℂ).map (starRingEnd ℂ))).map
        (fun z => ((starRingEnd ℂ) z).re)).getD 1 0 = 1 / 4 := by
  have hconj : ([0, Complex.I, 0, 0] : List ℂ).map (starRingEnd ℂ)
      = [0, -Complex.I, 0, 0] := by
    simp
  have hf1 : fft [0, -Complex.I, 0, 0] = [-Complex.I, -1, Complex.I, 1] := by
    rw [fft_four]
    norm_num [Complex.I_mul_I]
  have hf2 : fft [0, Complex.I, 0, 0] = [Complex.I, 1, -Complex.I, -1] := by
    rw [fft_four]
    norm_num [Complex.I_mul_I]
  constructor
  · rw [irfft, ifft, hconj, hf1]
    norm_num [Complex.div_re]
  · rw [ifft, hconj]
    rw [show ([0, -Complex.I, 0, 0] : List ℂ).map (starRingEnd ℂ)
      = [0, Complex.I, 0, 0] from by simp]
    rw [hf2]
    norm_num [Complex.div_re]

/-- C7 (amended): `irfft` applies `ifft` directly to its input and keeps only
the real parts; since `ifft` itself conjugates the input, applies the forward
`fft`, conjugates the output and divides by `n`, the result satisfies
`irfft(X)[t] = Re(fft(conj X)[t]) / n` — there is no additional conjugation
of `ifft`'s input or output as the original claim's formula stated. -/
theorem C7_theorem (X : List ℂ) (h1 : 1 ≤ X.length) :
    irfft X = (List.range X.length).map (fun t =>
      ((fft (X.map (starRingEnd ℂ))).getD t 0).re / X.length) := by
  have hclen : (X.map (starRingEnd ℂ)).length = X.length := by simp
  have hflen : (fft (X.map (starRingEnd ℂ))).length = X.length := by
    rw [fft_length (by rw [hclen]; exact h1), hclen]
  apply List.ext_getElem
  · rw [irfft_length h1]
    simp
  intro t ht1 ht2
  have ht : t < X.length := by rw [irfft_length h1] at ht1; exact ht1
  simp only [List.getElem_map, List.getElem_range]
  simp only [irfft, ifft, List.getElem_map]
  rw [re_div_nat, Complex.conj_re]
  rw [List.getD_eq_getElem _ 0 (by rw [hflen]; exact ht)]

/-- C7 witness: the amended description of `irfft` at the concrete spectrum
`[i]`. -/
theorem C7_witness :
    1 ≤ ([Complex.I] : List ℂ).length
    ∧ irfft [Complex.I] = (List.range ([Complex.I] : List ℂ).length).map (fun t =>
        ((fft (([Complex.I] : List ℂ).map (starRingEnd ℂ))).getD t 0).re
          / ([Complex.I] : List ℂ).length) :=
  ⟨by norm_num, C7_theorem [Complex.I] (by norm_num)⟩

/-- C8: on power-of-two lengths every FFT-family operation preserves the
input length, and `st` returns an `(n/2 + 1) × n` matrix. -/
theorem C8_theorem (K : ℕ) (z : List ℂ) (x : List ℝ)
    (hz : z.length = 2 ^ K) (hx : x.length = 2 ^ K) :
    (fft z).length = z.length ∧ (dft z).length = z.length
    ∧ (ifft z).length = z.length ∧ (idft z).length = z.length
    ∧ (rfft x).length = x.length ∧ (irfft z).length = z.length
    ∧ (irdft z).length = z.length
    ∧ (st x).length = x.length / 2 + 1
    ∧ ∀ row ∈ st x, row.length = x.length := by
  have h1z : 1 ≤ z.length := by rw [hz]; exact Nat.one_le_two_pow
  have h1x : 1 ≤ x.length := by rw [hx]; exact Nat.one_le_two_pow
  exact ⟨fft_length h1z, dft_length z, ifft_length h1z, idft_length z, rfft_length h1x,
    irfft_length h1z, irdft_length z, st_length x, st_row_length h1x⟩

/-- C8 witness: the shape invariants at the concrete inputs `[i]` and `[1]`. -/
theorem C8_witness :
    (([Complex.I] : List ℂ).length = 2 ^ 0 ∧ ([(1 : ℝ)] : List ℝ).length = 2 ^ 0)
    ∧ (fft [Complex.I]).length = ([Complex.I] : List ℂ).length :=
  ⟨⟨rfl, rfl⟩, (C8_theorem 0 [Complex.I] [(1 : ℝ)] rfl rfl).1⟩

/-- C9: the recursive `fft` terminates on every input of length at least 1
(`x.length` units of fuel always suffice, because each recursive call
operates on a strictly shorter slice), while on the empty input the even and
odd sub-slices are again empty, the base case is never reached, and no amount
of fuel suffices — the source recursion diverges. -/
theorem C9_theorem :
    (∀ x : List ℂ, 1 ≤ x.length → ∃ r, fftF x.length x = some r)
    ∧ ∀ fuel : ℕ, fftF fuel ([] : List ℂ) = none :=
  ⟨fun x hx => fftF_isSome x.length x hx le_rfl, fftF_nil⟩

/-- C9 witness: termination at the concrete input `[1]` and divergence of the
empty input with 5 units of fuel. -/
theorem C9_witness :
    (∃ r, fftF ([(1 : ℂ)] : List ℂ).length [(1 : ℂ)] = some r)
    ∧ fftF 5 ([] : List ℂ) = none :=
  ⟨C9_theorem.1 [(1 : ℂ)] (by norm_num), C9_theorem.2 5⟩

/-- C10: calling `stft` with `hop_size = 0` always fails (the frame-count
computation divides by `hop_size`), even when the other preconditions
`window_size ≥ 1` and `len(x) ≥ window_size` hold. -/
theorem C10_theorem (x : List ℝ) (ws : ℕ) (hws : 1 ≤ ws) (hlen : ws ≤ x.length) :
    stft x ws 0 = none := by
  simp [stft]

/-- C10 witness: the hop-size-zero failure at the concrete signal `[0, 0]`. -/
theorem C10_witness : stft [(0 : ℝ), 0] 1 0 = none :=
  C10_theorem [(0 : ℝ), 0] 1 (le_refl 1) (by norm_num)

/-! ### Overlap-add convolution: index and support helpers -/

theorem getD_zipWith_mul (xs ys : List ℂ) {k : ℕ} (hk1 : k < xs.length) (hk2 : k < ys.length) :
    (List.zipWith (· * ·) xs ys).getD k 0 = xs.getD k 0 * ys.getD k 0 := by
  rw [List.getD_eq_getElem _ _ (by rw [List.length_zipWith]; omega),
    List.getD_eq_getElem _ _ hk1, List.getD_eq_getElem _ _ hk2, List.getElem_zipWith]

theorem mod_shift_eq (n : ℕ) {u k : ℕ} (hu : u < n) (hk : k < n) :
    (n + k - u) % n = if u ≤ k then k - u else n + k - u := by
  rcases le_or_lt u k with h | h
  · rw [if_pos h, show n + k - u = n + (k - u) by omega, Nat.add_mod_left,
      Nat.mod_eq_of_lt (by omega)]
  · rw [if_neg (not_le.mpr h)]
    exact Nat.mod_eq_of_lt (by omega)

theorem add_mod_eq_iff (n : ℕ) {u v k : ℕ} (hu : u < n) (hv : v < n) (hk : k < n) :
    (u + v) % n = k ↔ v = (n + k - u) % n := by
  have huv : (u + v) % n = if u + v < n then u + v else u + v - n := by
    rcases lt_or_le (u + v) n with h | h
    · rw [if_pos h, Nat.mod_eq_of_lt h]
    · rw [if_neg (not_lt.mpr h), Nat.mod_eq_sub_mod h, Nat.mod_eq_of_lt (by omega)]
  rw [huv, mod_shift_eq n hu hk]
  split <;> split <;> omega

theorem getD_take {α : Type*} (rest : List α) (l i : ℕ) (d : α) :
    (rest.take l).getD i d = if i < l then rest.getD i d else d := by
  rcases lt_or_le i l with h | h
  · rw [if_pos h]
    rcases lt_or_le i rest.length with h2 | h2
    · rw [List.getD_eq_getElem _ _ (by rw [List.length_take]; omega),
        List.getD_eq_getElem _ _ h2, List.getElem_take]
    · rw [List.getD_eq_default _ _ (by rw [List.length_take]; omega),
        List.getD_eq_default _ _ h2]
  · rw [if_neg (not_lt.mpr h), List.getD_eq_default _ _ (by rw [List.length_take]; omega)]

theorem getD_drop {α : Type*} (rest : List α) (l i : ℕ) (d : α) :
    (rest.drop l).getD i d = rest.getD (l + i) d := by
  rcases lt_or_le (l + i) rest.length with h | h
  · rw [List.getD_eq_getElem _ _ (by rw [List.length_drop]; omega),
      List.getD_eq_getElem _ _ h, List.getElem_drop]
  · rw [List.getD_eq_default _ _ (by rw [List.length_drop]; omega), List.getD_eq_default _ _ h]

theorem getD_replicate_zero (k i : ℕ) : (List.replicate k (0 : ℝ)).getD i 0 = 0 := by
  rcases lt_or_le i k with h | h
  · rw [List.getD_eq_getElem _ _ (by simpa using h), List.getElem_replicate]
  · rw [List.getD_eq_default _ _ (by simpa using h)]

theorem convAt_nil (coef : List ℝ) (j : ℕ) : convAt coef [] j = 0 := by
  unfold convAt
  apply Finset.sum_eq_zero
  intro b _
  simp [List.getD]

/-- `convAt` vanishes beyond the support of the linear convolution. -/
theorem convAt_eq_zero (coef s : List ℝ) {j : ℕ} (hj : s.length + coef.length ≤ j + 1) :
    convAt coef s j = 0 := by
  unfold convAt
  apply Finset.sum_eq_zero
  intro b hb
  rw [Finset.mem_range] at hb
  rcases le_or_lt b j with h | h
  · rw [if_pos h, List.getD_eq_default s _ (by omega), mul_zero]
  · rw [if_neg (not_le.mpr h), mul_zero]

/-- The convolution theorem for the real transform pair: pointwise
multiplication of spectra inverse-transforms to a circular convolution. -/
theorem irfft_mul_rfft {n K : ℕ} (hn : n = 2 ^ K) (a b : List ℝ)
    (ha : a.length = n) (hb : b.length = n) :
    irfft (List.zipWith (· * ·) (rfft a) (rfft b))
    = (List.range n).map (fun j =>
        ∑ u ∈ Finset.range n, a.getD u 0 * b.getD ((n + j - u) % n) 0) := by
  have hn1 : 1 ≤ n := by rw [hn]; exact Nat.one_le_two_pow
  have hnC : (n : ℂ) ≠ 0 := Nat.cast_ne_zero.mpr (by omega)
  have hac : (a.map (fun r : ℝ => (r : ℂ))).length = n := by simpa using ha
  have hbc : (b.map (fun r : ℝ => (r : ℂ))).length = n := by simpa using hb
  set ac := a.map (fun r : ℝ => (r : ℂ)) with hacdef
  set bc := b.map (fun r : ℝ => (r : ℂ)) with hbcdef
  have hfa : rfft a = dft ac := by
    rw [rfft, ← hacdef, fft_eq_dft (by rw [hac, hn])]
  have hfb : rfft b = dft bc := by
    rw [rfft, ← hbcdef, fft_eq_dft (by rw [hbc, hn])]
  set P := List.zipWith (· * ·) (dft ac) (dft bc) with hP
  have hPlen : P.length = n := by
    rw [hP, List.length_zipWith, dft_length, dft_length, hac, hbc]
    omega
  rw [irfft, hfa, hfb, ← hP, ifft_eq_idft (by rw [hPlen, hn])]
  apply List.ext_getElem
  · rw [List.length_map, idft_length, hPlen]
    simp
  intro k hk1 hk2
  have hkn : k < n := by simpa using hk2
  rw [List.getElem_map]
  rw [← List.getD_eq_getElem (idft P) 0 (by rw [idft_length, hPlen]; exact hkn),
    idft_getD (by rw [hPlen]; exact hkn), hPlen]
  have hPt : ∀ t ∈ Finset.range n, iuroot n ^ (k * t) * P.getD t 0
      = ∑ u ∈ Finset.range n, ∑ v ∈ Finset.range n,
          iuroot n ^ (k * t) * uroot n ^ (t * (u + v)) * (ac.getD u 0 * bc.getD v 0) := by
    intro t ht
    rw [Finset.mem_range] at ht
    rw [hP, getD_zipWith_mul _ _ (by rw [dft_length, hac]; exact ht)
      (by rw [dft_length, hbc]; exact ht)]
    rw [dft_getD (by rw [hac]; exact ht), dft_getD (by rw [hbc]; exact ht), hac, hbc]
    rw [Finset.sum_mul_sum]
    rw [Finset.mul_sum]
    refine Finset.sum_congr rfl (fun u _ => ?_)
    rw [Finset.mul_sum]
    refine Finset.sum_congr rfl (fun v _ => ?_)
    rw [show t * (u + v) = t * u + t * v by ring, pow_add]
    ring
  rw [Finset.sum_congr rfl hPt, Finset.sum_comm]
  have hinner : ∀ u ∈ Finset.range n,
      (∑ t ∈ Finset.range n, ∑ v ∈ Finset.range n,
        iuroot n ^ (k * t) * uroot n ^ (t * (u + v)) * (ac.getD u 0 * bc.getD v 0))
      = (n : ℂ) * (ac.getD u 0 * bc.getD ((n + k - u) % n) 0) := by
    intro u hu
    rw [Finset.mem_range] at hu
    rw [Finset.sum_comm]
    have hv : ∀ v ∈ Finset.range n,
        (∑ t ∈ Finset.range n,
          iuroot n ^ (k * t) * uroot n ^ (t * (u + v)) * (ac.getD u 0 * bc.getD v 0))
        = (if v = (n + k - u) % n then (n : ℂ) * (ac.getD u 0 * bc.getD v 0) else 0) := by
      intro v hvm
      rw [Finset.mem_range] at hvm
      rw [← Finset.sum_mul, sum_iuroot_uroot hn1 (u + v) hkn, ite_mul, zero_mul]
      by_cases hcond : (u + v) % n = k
      · rw [if_pos hcond, if_pos ((add_mod_eq_iff n hu hvm hkn).mp hcond)]
      · rw [if_neg hcond, if_neg (fun hv2 => hcond ((add_mod_eq_iff n hu hvm hkn).mpr hv2))]
    rw [Finset.sum_congr rfl hv, Finset.sum_ite_eq' (Finset.range n) ((n + k - u) % n)
      (fun v => (n : ℂ) * (ac.getD u 0 * bc.getD v 0)),
      if_pos (Finset.mem_range.mpr (Nat.mod_lt _ (by omega)))]
  rw [Finset.sum_congr rfl hinner, ← Finset.mul_sum, mul_comm ((n : ℂ)) _, mul_div_assoc,
    div_self hnC, mul_one]
  have hreal : ∀ u ∈ Finset.range n, ac.getD u 0 * bc.getD ((n + k - u) % n) 0
      = ((a.getD u 0 * b.getD ((n + k - u) % n) 0 : ℝ) : ℂ) := by
    intro u _
    rw [hacdef, hbcdef, getD_map_ofReal, getD_map_ofReal, Complex.ofReal_mul]
  rw [Finset.sum_congr rfl hreal, ← Complex.ofReal_sum, Complex.ofReal_re]
  rw [List.getElem_map, List.getElem_range]

/-- When the supports fit inside one block (`len(chunk) + len(coef) ≤ n + 1`),
the length-`n` circular convolution of the zero-padded lists agrees with the
plain linear convolution. -/
theorem circ_pad_eq_conv (coef chunk : List ℝ) (n : ℕ)
    (hlen : chunk.length + coef.length ≤ n + 1) {j : ℕ} (hj : j < n) :
    (∑ u ∈ Finset.range n, (chunk ++ List.replicate (n - chunk.length) 0).getD u 0
        * (coef ++ List.replicate (n - coef.length) 0).getD ((n + j - u) % n) 0)
    = convAt coef chunk j := by
  set m := coef.length with hmdef
  set cl := chunk.length with hcldef
  have hstep1 : ∀ u ∈ Finset.range n,
      (chunk ++ List.replicate (n - cl) 0).getD u 0
        * (coef ++ List.replicate (n - m) 0).getD ((n + j - u) % n) 0
      = chunk.getD u 0 * (if u ≤ j ∧ j - u < m then coef.getD (j - u) 0 else 0) := by
    intro u hu
    rw [Finset.mem_range] at hu
    rw [getD_pad chunk, getD_pad coef, mod_shift_eq n hu hj]
    rcases le_or_lt u j with huj | huj
    · rw [if_pos huj]
      by_cases hcl : u < cl
      · rw [if_pos hcl]
        by_cases hjm : j - u < m
        · rw [if_pos hjm, if_pos (And.intro huj hjm)]
        · rw [if_neg hjm, if_neg (fun hand => hjm hand.2)]
      · rw [if_neg hcl, List.getD_eq_default chunk _ (by omega), zero_mul, zero_mul]
    · rw [if_neg (not_le.mpr huj)]
      by_cases hcl : u < cl
      · rw [if_pos hcl, if_neg (by omega : ¬ n + j - u < m), mul_zero,
          if_neg (by omega : ¬ (u ≤ j ∧ j - u < m)), mul_zero]
      · rw [if_neg hcl, List.getD_eq_default chunk _ (by omega), zero_mul, zero_mul]
  rw [Finset.sum_congr rfl hstep1]
  have hsub : Finset.range (j + 1) ⊆ Finset.range n := by
    intro t ht
    rw [Finset.mem_range] at ht ⊢
    omega
  rw [← Finset.sum_subset hsub (fun u hu hnotu => by
    rw [Finset.mem_range, not_lt] at hnotu
    rw [if_neg (by omega : ¬ (u ≤ j ∧ j - u < m)), mul_zero])]
  rw [← Finset.sum_range_reflect
    (fun u => chunk.getD u 0 * (if u ≤ j ∧ j - u < m then coef.getD (j - u) 0 else 0)) (j + 1)]
  have hterm : ∀ b ∈ Finset.range (j + 1),
      chunk.getD (j + 1 - 1 - b) 0
        * (if j + 1 - 1 - b ≤ j ∧ j - (j + 1 - 1 - b) < m then
            coef.getD (j - (j + 1 - 1 - b)) 0 else 0)
      = coef.getD b 0 * (if b ≤ j then chunk.getD (j - b) 0 else 0) := by
    intro b hb
    rw [Finset.mem_range] at hb
    have h1 : j + 1 - 1 - b = j - b := by omega
    have h2 : j - (j - b) = b := by omega
    rw [h1, h2, if_pos (show b ≤ j by omega)]
    by_cases hbm : b < m
    · rw [if_pos (And.intro (by omega) hbm)]
      ring
    · rw [if_neg (fun hand => hbm hand.2), List.getD_eq_default coef _ (by omega),
        mul_zero, zero_mul]
  rw [Finset.sum_congr rfl hterm]
  have hG1 : ∑ b ∈ Finset.range (j + 1),
      coef.getD b 0 * (if b ≤ j then chunk.getD (j - b) 0 else 0)
      = ∑ b ∈ Finset.range (max (j + 1) m),
          coef.getD b 0 * (if b ≤ j then chunk.getD (j - b) 0 else 0) :=
    Finset.sum_subset (by
      intro t ht
      rw [Finset.mem_range] at ht ⊢
      omega) (fun b _ hnb => by
      rw [Finset.mem_range, not_lt] at hnb
      rw [if_neg (by omega : ¬ b ≤ j), mul_zero])
  have hG2 : convAt coef chunk j
      = ∑ b ∈ Finset.range (max (j + 1) m),
          coef.getD b 0 * (if b ≤ j then chunk.getD (j - b) 0 else 0) := by
    unfold convAt
    refine Finset.sum_subset (by
      intro t ht
      rw [Finset.mem_range] at ht ⊢
      omega) (fun b _ hnb => ?_)
    rw [Finset.mem_range, not_lt] at hnb
    rw [List.getD_eq_default coef _ (by omega), zero_mul]
  rw [hG1, hG2]

/-- One block of the overlap-add loop computes the linear convolution of the
chunk with the coefficients, zero-extended to the block length `n`. -/
theorem block_value {n K : ℕ} (hn : n = 2 ^ K) (coef chunk : List ℝ)
    (hcl : chunk.length ≤ n) (hm : coef.length ≤ n)
    (hlen : chunk.length + coef.length ≤ n + 1) :
    irfft (List.zipWith (· * ·) (rfft (chunk ++ List.replicate (n - chunk.length) 0))
      (rfft (coef ++ List.replicate (n - coef.length) 0)))
    = (List.range n).map (fun j => convAt coef chunk j) := by
  have hpa : (chunk ++ List.replicate (n - chunk.length) 0).length = n := by
    rw [List.length_append, List.length_replicate]
    omega
  have hpb : (coef ++ List.replicate (n - coef.length) 0).length = n := by
    rw [List.length_append, List.length_replicate]
    omega
  rw [irfft_mul_rfft hn _ _ hpa hpb]
  apply List.map_congr_left
  intro j hj
  rw [List.mem_range] at hj
  exact circ_pad_eq_conv coef chunk n hlen hj

/-- Splitting the signal into a leading chunk and a remainder splits the
linear convolution into the chunk's convolution plus the remainder's
convolution shifted by the chunk length. -/
theorem convAt_take_drop (coef rest : List ℝ) (l j : ℕ) :
    convAt coef rest j
    = convAt coef (rest.take l) j
      + (if l ≤ j then convAt coef (rest.drop l) (j - l) else 0) := by
  unfold convAt
  by_cases hlj : l ≤ j
  · rw [if_pos hlj, ← Finset.sum_add_distrib]
    refine Finset.sum_congr rfl (fun b hb => ?_)
    rw [← mul_add]
    congr 1
    by_cases hbj : b ≤ j
    · rw [if_pos hbj, getD_take rest l (j - b) 0]
      by_cases hbl : b ≤ j - l
      · rw [if_pos hbl, if_neg (by omega : ¬ j - b < l), getD_drop, ite_self, zero_add]
        congr 1
        omega
      · rw [if_neg hbl, add_zero, if_pos (by omega : j - b < l), if_pos hbj]
    · rw [if_neg hbj, if_neg hbj, if_neg (by omega : ¬ b ≤ j - l), add_zero]
  · rw [if_neg hlj, add_zero]
    refine Finset.sum_congr rfl (fun b _ => ?_)
    congr 1
    by_cases hbj : b ≤ j
    · rw [if_pos hbj, if_pos hbj, getD_take rest l (j - b) 0, if_pos (by omega : j - b < l)]
    · rw [if_neg hbj, if_neg hbj]

theorem addInto_length (out : List ℝ) (start : ℕ) (y : List ℝ) :
    (addInto out start y).length = out.length := by
  simp [addInto]

/-- The overlap-add block loop adds, at every output index at or after
`start`, the linear convolution of the coefficients with the remaining
signal; positions before `start` are untouched and nothing non-zero is ever
truncated (given the output is long enough). -/
theorem oaLoop_spec {n K : ℕ} (hn : n = 2 ^ K) (coef : List ℝ) (hm : 1 ≤ coef.length)
    (hmn : coef.length ≤ n) :
    ∀ (rest out : List ℝ) (start : ℕ),
      (rest = [] ∨ start + rest.length + coef.length ≤ out.length + 1) →
      oaLoop (rfft (coef ++ List.replicate (n - coef.length) 0)) n (n - coef.length + 1)
          out start rest
      = (List.range out.length).map (fun idx =>
          out.getD idx 0 + if start ≤ idx then convAt coef rest (idx - start) else 0)
  | [], out, start, _ => by
    rw [oaLoop]
    conv_lhs => rw [list_eq_map_range_getD 0 out]
    refine List.map_congr_left (fun idx _ => ?_)
    rw [convAt_nil, ite_self, add_zero]
  | a :: rest', out, start, hbound => by
    have hbound2 : start + (a :: rest').length + coef.length ≤ out.length + 1 := by
      rcases hbound with h | h
      · exact absurd h (by simp)
      · exact h
    rw [oaLoop, dif_neg (by omega : ¬ n - coef.length + 1 = 0)]
    dsimp only
    have hchunk : ((a :: rest').take (n - coef.length + 1)).length ≤ n - coef.length + 1 := by
      rw [List.length_take]
      omega
    have hchunkn : ((a :: rest').take (n - coef.length + 1)).length ≤ n := by omega
    have hy := block_value hn coef ((a :: rest').take (n - coef.length + 1)) hchunkn hmn
      (by omega)
    rw [hy]
    rw [oaLoop_spec hn coef hm hmn ((a :: rest').drop (n - coef.length + 1))
      (addInto out start ((List.range n).map
        (fun j => convAt coef ((a :: rest').take (n - coef.length + 1)) j)))
      (start + (n - coef.length + 1))
      (by
        rcases le_or_lt (a :: rest').length (n - coef.length + 1) with h | h
        · exact Or.inl (List.drop_eq_nil_of_le h)
        · right
          rw [List.length_drop, addInto_length]
          have := hbound2
          omega)]
    rw [addInto_length]
    refine List.map_congr_left (fun idx hidx => ?_)
    rw [List.mem_range] at hidx
    have haddg : (addInto out start ((List.range n).map
        (fun j => convAt coef ((a :: rest').take (n - coef.length + 1)) j))).getD idx 0
        = out.getD idx 0 + (if start ≤ idx ∧ idx < start + n then
            convAt coef ((a :: rest').take (n - coef.length + 1)) (idx - start) else 0) := by
      rw [addInto, getD_map_range _ hidx]
      congr 1
      by_cases hc : start ≤ idx ∧ idx < start + ((List.range n).map
          (fun j => convAt coef ((a :: rest').take (n - coef.length + 1)) j)).length
      · have hc' : start ≤ idx ∧ idx < start + n := by simpa using hc
        rw [if_pos hc, if_pos hc', getD_map_range _ (by omega)]
      · have hc' : ¬ (start ≤ idx ∧ idx < start + n) := by simpa using hc
        rw [if_neg hc, if_neg hc']
    rw [haddg]
    by_cases hs : start ≤ idx
    · rw [convAt_take_drop coef (a :: rest') (n - coef.length + 1) (idx - start), if_pos hs]
      by_cases hwin : idx < start + n
      · rw [if_pos (And.intro hs hwin)]
        by_cases hl2 : start + (n - coef.length + 1) ≤ idx
        · rw [if_pos hl2, if_pos (by omega : n - coef.length + 1 ≤ idx - start),
            show idx - (start + (n - coef.length + 1)) = idx - start - (n - coef.length + 1)
              by omega]
          ring
        · rw [if_neg hl2, if_neg (by omega : ¬ n - coef.length + 1 ≤ idx - start)]
          ring
      · rw [if_neg (fun hand => hwin hand.2)]
        have hz : convAt coef ((a :: rest').take (n - coef.length + 1)) (idx - start) = 0 :=
          convAt_eq_zero _ _ (by omega)
        rw [hz]
        by_cases hl2 : start + (n - coef.length + 1) ≤ idx
        · rw [if_pos hl2, if_pos (by omega : n - coef.length + 1 ≤ idx - start),
            show idx - (start + (n - coef.length + 1)) = idx - start - (n - coef.length + 1)
              by omega]
          ring
        · rw [if_neg hl2, if_neg (by omega : ¬ n - coef.length + 1 ≤ idx - start)]
          ring
    · rw [if_neg (fun hand => hs hand.1), if_neg (by omega : ¬ start + (n - coef.length + 1) ≤ idx),
        if_neg hs]
      ring
  termination_by rest => rest.length
  decreasing_by simp [List.length_drop]; omega

theorem process_eq_linConv (coef s : List ℝ) (hm : 1 ≤ coef.length) (hs : 1 ≤ s.length) :
    process coef s = linConv coef s := by
  have hnpt : coef.length ≤ nextPowTwo coef.length := le_nextPowTwo _
  have hK : 8 * nextPowTwo coef.length = 2 ^ (3 + Nat.clog 2 coef.length) := by
    rw [nextPowTwo, pow_add]
    norm_num
  have hmn : coef.length ≤ 8 * nextPowTwo coef.length := by omega
  simp only [process]
  rw [oaLoop_spec hK coef hm hmn s (List.replicate (s.length + coef.length - 1) 0) 0
    (Or.inr (by rw [List.length_replicate]; omega))]
  rw [List.length_replicate]
  unfold linConv
  refine List.map_congr_left (fun idx _ => ?_)
  rw [getD_replicate_zero, zero_add, if_pos (Nat.zero_le idx), Nat.sub_zero]

/-- C4: for every non-empty coefficient list and non-empty signal,
`FIRFilter::process` returns exactly `len(signal) + m - 1` samples equal (in
the exact-arithmetic model) to the full linear convolution of the
coefficients with the signal; overlapping block contributions are summed into
the output, never overwritten. -/
theorem C4_theorem (coefficients signal : List ℝ) (hm : 1 ≤ coefficients.length)
    (hs : 1 ≤ signal.length) :
    (process coefficients signal).length = signal.length + coefficients.length - 1
    ∧ process coefficients signal = linConv coefficients signal := by
  have h := process_eq_linConv coefficients signal hm hs
  refine ⟨?_, h⟩
  rw [h]
  simp [linConv]

/-- C4 witness: the overlap-add filter at the concrete coefficients `[1]` and
signal `[1]`. -/
theorem C4_witness :
    (1 ≤ ([(1 : ℝ)] : List ℝ).length ∧ 1 ≤ ([(1 : ℝ)] : List ℝ).length)
    ∧ process [(1 : ℝ)] [(1 : ℝ)] = linConv [(1 : ℝ)] [(1 : ℝ)] :=
  ⟨⟨by norm_num, by norm_num⟩,
    (C4_theorem [(1 : ℝ)] [(1 : ℝ)] (by norm_num) (by norm_num)).2⟩

end RustyBrain

